import Mathlib

/-!
Shallow embedding of the mem-scope-track runtime (src/track.cxx and the
allocator-overload translation unit) and proofs about its specification.

The C++ `std::unordered_map` containers are modelled as association lists
with the exact operations the source performs: `find`, mutation of the
found iterator's value, `emplace` of an absent key, and `erase` of the
found iterator.  Machine integers (`size_t`) are modelled as `Nat` with
explicit reduction modulo 2^64 where the source arithmetic can wrap.
-/

set_option maxHeartbeats 1000000

/-- Value of a `void*` pointer, treated as an integer key; `0` is `nullptr`. -/
abbrev Addr := Nat

/-- A scope label (`std::string`). -/
abbrev Scope := String

/-- Association-list analogue of `unordered_map::find`: the value at the first
occurrence of key `k`, or `none`. -/
def mapFind {α β : Type} [DecidableEq α] (k : α) : List (α × β) → Option β
  | [] => none
  | (k2, v) :: rest => if k2 = k then some v else mapFind k rest

/-- Association-list analogue of `unordered_map::erase(iterator)` where the
iterator came from `find(k)`: remove the first occurrence of key `k`. -/
def mapEraseFirst {α β : Type} [DecidableEq α] (k : α) : List (α × β) → List (α × β)
  | [] => []
  | (k2, v) :: rest => if k2 = k then rest else (k2, v) :: mapEraseFirst k rest

/-- Association-list analogue of writing through the iterator returned by
`find(k)`: apply `f` to the value at the first occurrence of key `k`. -/
def mapAdjustFirst {α β : Type} [DecidableEq α] (k : α) (f : β → β) :
    List (α × β) → List (α × β)
  | [] => []
  | (k2, v) :: rest =>
      if k2 = k then (k2, f v) :: rest else (k2, v) :: mapAdjustFirst k f rest

/-- Diagnostic records emitted through the log sink (`Log::print` call sites),
carrying the printf arguments of the corresponding source line. -/
inductive LogEvent : Type
  /-- The two `Tracking::add` duplicate-address lines: address, new scope,
  new size, previous scope, previous size. -/
  | duplicate (addr : Addr) (newScope : Scope) (newSize : Nat)
      (prevScope : Scope) (prevSize : Nat)
  /-- The `memory::track` diagnostic line: address, size, current scope. -/
  | trackMsg (addr : Addr) (size : Nat) (scope : Scope)
  /-- The `memory::release` diagnostic line. -/
  | releaseMsg (addr : Addr)
  deriving Repr, DecidableEq

/-- The ledger state of class `Tracking`: `ptr_map_` maps a live address to
the `(scope, size)` recorded at allocation, `scope_map_` maps a scope label
to its running byte total. -/
structure Ledger : Type where
  ptr_map : List (Addr × (Scope × Nat))
  scope_map : List (Scope × Nat)
  deriving Repr, DecidableEq

/-- The ledger of a freshly constructed `Tracking` object: both maps empty. -/
def Ledger.empty : Ledger := { ptr_map := [], scope_map := [] }

namespace Tracking

/-- Embedding of `Tracking::add(void* addr, std::string scope, size_t size)`.
Returns the new ledger and the log events emitted.  If the address is
already present the state is returned unchanged together with the
duplicate-address diagnostic; otherwise the address entry is inserted and
the scope total is incremented (created at `size` when the scope is absent,
mirroring `scope_map_.emplace(std::make_pair(scope,size))`). -/
def add (st : Ledger) (addr : Addr) (scope : Scope) (size : Nat) :
    Ledger × List LogEvent :=
  match mapFind addr st.ptr_map with
  | none =>
      let pm := (addr, (scope, size)) :: st.ptr_map
      let sm :=
        match mapFind scope st.scope_map with
        | none => (scope, size) :: st.scope_map
        | some _ => mapAdjustFirst scope (fun v => v + size) st.scope_map
      ({ ptr_map := pm, scope_map := sm }, [])
  | some (pscope, psize) =>
      (st, [LogEvent.duplicate addr scope size pscope psize])

/-- Embedding of `Tracking::remove(void* addr)`.  A miss is a no-op; a hit
clamps the recorded scope's total (`iter2->second <= size ? 0 : -= size`)
and erases the address entry. -/
def remove (st : Ledger) (addr : Addr) : Ledger :=
  match mapFind addr st.ptr_map with
  | none => st
  | some (scope, size) =>
      let sm :=
        match mapFind scope st.scope_map with
        | none => st.scope_map
        | some _ =>
            mapAdjustFirst scope
              (fun v => if v ≤ size then 0 else v - size) st.scope_map
      { ptr_map := mapEraseFirst addr st.ptr_map, scope_map := sm }

/-- Embedding of `Tracking::get_extents()`: a copy of the scope-totals map. -/
def get_extents (st : Ledger) : List (Scope × Nat) := st.scope_map

end Tracking

/-- The byte total currently recorded for scope `s` (0 when absent). -/
def scopeTotal (st : Ledger) (s : Scope) : Nat :=
  (mapFind s st.scope_map).getD 0

/-- Sum of the recorded sizes of the address entries bearing scope `s`. -/
def sumScope (s : Scope) : List (Addr × (Scope × Nat)) → Nat
  | [] => 0
  | (_, (s2, n)) :: rest => (if s2 = s then n else 0) + sumScope s rest

/-! ### Lemmas about the association-list map operations -/

theorem mapFind_eq_none_iff {α β : Type} [DecidableEq α] (k : α)
    (l : List (α × β)) : mapFind k l = none ↔ k ∉ l.map Prod.fst := by
  induction l with
  | nil => simp [mapFind]
  | cons hd tl ih =>
      obtain ⟨k2, v⟩ := hd
      by_cases h : k2 = k
      · subst h; simp [mapFind]
      · simp [mapFind, h, ih, Ne.symm h]

theorem mapFind_mem {α β : Type} [DecidableEq α] {k : α} {v : β}
    {l : List (α × β)} (h : mapFind k l = some v) : (k, v) ∈ l := by
  induction l with
  | nil => simp [mapFind] at h
  | cons hd tl ih =>
      obtain ⟨k2, v2⟩ := hd
      by_cases hk : k2 = k
      · subst hk
        simp [mapFind] at h
        simp [h]
      · simp [mapFind, hk] at h
        exact List.mem_cons_of_mem _ (ih h)

theorem mapFind_adjustFirst_self {α β : Type} [DecidableEq α] (k : α)
    (f : β → β) (l : List (α × β)) :
    mapFind k (mapAdjustFirst k f l) = (mapFind k l).map f := by
  induction l with
  | nil => rfl
  | cons hd tl ih =>
      obtain ⟨k2, v⟩ := hd
      by_cases h : k2 = k
      · simp [mapAdjustFirst, mapFind, h]
      · simp [mapAdjustFirst, mapFind, h, ih]

theorem mapFind_adjustFirst_ne {α β : Type} [DecidableEq α] {k k2 : α}
    (hne : k2 ≠ k) (f : β → β) (l : List (α × β)) :
    mapFind k2 (mapAdjustFirst k f l) = mapFind k2 l := by
  induction l with
  | nil => rfl
  | cons hd tl ih =>
      obtain ⟨k3, v⟩ := hd
      by_cases h : k3 = k
      · subst h
        simp [mapAdjustFirst, mapFind, Ne.symm hne]
      · by_cases h2 : k3 = k2 <;>
          simp [mapAdjustFirst, mapFind, h, h2, ih, hne]

theorem mapAdjustFirst_keys {α β : Type} [DecidableEq α] (k : α) (f : β → β)
    (l : List (α × β)) :
    (mapAdjustFirst k f l).map Prod.fst = l.map Prod.fst := by
  induction l with
  | nil => rfl
  | cons hd tl ih =>
      obtain ⟨k2, v⟩ := hd
      by_cases h : k2 = k <;> simp [mapAdjustFirst, h, ih]

theorem mapEraseFirst_sublist {α β : Type} [DecidableEq α] (k : α)
    (l : List (α × β)) : (mapEraseFirst k l).Sublist l := by
  induction l with
  | nil => simp [mapEraseFirst]
  | cons hd tl ih =>
      obtain ⟨k2, v⟩ := hd
      by_cases h : k2 = k
      · simp only [mapEraseFirst, if_pos h]
        exact List.sublist_cons_self (k2, v) tl
      · simp only [mapEraseFirst, if_neg h, List.cons_sublist_cons]
        exact ih

theorem mapFind_eraseFirst_self {α β : Type} [DecidableEq α] (k : α)
    {l : List (α × β)} (hnd : (l.map Prod.fst).Nodup) :
    mapFind k (mapEraseFirst k l) = none := by
  induction l with
  | nil => rfl
  | cons hd tl ih =>
      obtain ⟨k2, v⟩ := hd
      simp only [List.map_cons, List.nodup_cons] at hnd
      by_cases h : k2 = k
      · subst h
        simp only [mapEraseFirst, if_pos rfl]
        exact (mapFind_eq_none_iff k2 tl).2 hnd.1
      · simp [mapEraseFirst, mapFind, h, ih hnd.2]

theorem mapFind_eraseFirst_ne {α β : Type} [DecidableEq α] {k k2 : α}
    (hne : k2 ≠ k) (l : List (α × β)) :
    mapFind k2 (mapEraseFirst k l) = mapFind k2 l := by
  induction l with
  | nil => rfl
  | cons hd tl ih =>
      obtain ⟨k3, v⟩ := hd
      by_cases h : k3 = k
      · subst h
        simp [mapEraseFirst, mapFind, Ne.symm hne]
      · by_cases h2 : k3 = k2 <;>
          simp [mapEraseFirst, mapFind, h, h2, ih, hne]

/-! ### C1 and C2: the ledger operations `add` and `remove` -/

/-- C1: `Tracking::add(address, scope, size)` on a duplicate address logs the
anomaly carrying the new and the previous `(scope, size)` and mutates
nothing; on a fresh address it inserts `address → (scope, size)` (leaving
all other addresses untouched), raises the scope's total by `size` —
creating the entry at value `size` when the scope was absent — and leaves
all other scope totals untouched, logging nothing. -/
theorem tracking_add_correct (st : Ledger) (a : Addr) (s : Scope) (n : Nat) :
    (∀ ps pn, mapFind a st.ptr_map = some (ps, pn) →
        Tracking.add st a s n = (st, [LogEvent.duplicate a s n ps pn]))
    ∧ (mapFind a st.ptr_map = none →
        (Tracking.add st a s n).2 = []
        ∧ mapFind a (Tracking.add st a s n).1.ptr_map = some (s, n)
        ∧ (∀ a2, a2 ≠ a →
            mapFind a2 (Tracking.add st a s n).1.ptr_map
              = mapFind a2 st.ptr_map)
        ∧ mapFind s (Tracking.add st a s n).1.scope_map
            = some (scopeTotal st s + n)
        ∧ (∀ s2, s2 ≠ s →
            mapFind s2 (Tracking.add st a s n).1.scope_map
              = mapFind s2 st.scope_map)) := by
  constructor
  · intro ps pn h
    simp [Tracking.add, h]
  · intro h
    refine ⟨?_, ?_, ?_, ?_, ?_⟩
    · simp [Tracking.add, h]
    · simp [Tracking.add, h, mapFind]
    · intro a2 ha2
      rcases h2 : mapFind s st.scope_map with _ | t <;>
        simp [Tracking.add, h, h2, mapFind, Ne.symm ha2]
    · rcases h2 : mapFind s st.scope_map with _ | t
      · simp [Tracking.add, h, h2, mapFind, scopeTotal]
      · simp [Tracking.add, h, h2, mapFind_adjustFirst_self, scopeTotal]
    · intro s2 hs2
      rcases h2 : mapFind s st.scope_map with _ | t
      · simp [Tracking.add, h, h2, mapFind, Ne.symm hs2]
      · simp [Tracking.add, h, h2, mapFind_adjustFirst_ne hs2]

/-- Witness for C1 at concrete inputs: a fresh address is inserted with the
scope total created at the allocation size, and a duplicate add mutates
nothing while logging the two recorded `(scope, size)` pairs. -/
theorem tracking_add_correct_witness :
    (Tracking.add Ledger.empty 7 "A" 5).2 = []
    ∧ mapFind 7 (Tracking.add Ledger.empty 7 "A" 5).1.ptr_map = some ("A", 5)
    ∧ mapFind "A" (Tracking.add Ledger.empty 7 "A" 5).1.scope_map
        = some (scopeTotal Ledger.empty "A" + 5)
    ∧ Tracking.add (Tracking.add Ledger.empty 7 "A" 5).1 7 "B" 9
        = ((Tracking.add Ledger.empty 7 "A" 5).1,
           [LogEvent.duplicate 7 "B" 9 "A" 5]) := by
  have h1 := (tracking_add_correct Ledger.empty 7 "A" 5).2 (by rfl)
  have h2 := (tracking_add_correct (Tracking.add Ledger.empty 7 "A" 5).1
      7 "B" 9).1 "A" 5 (by rfl)
  exact ⟨h1.1, h1.2.1, h1.2.2.2.1, h2⟩

/-- C2: `Tracking::remove(address)` on an unknown address changes nothing at
all; on a known address it erases that address entry (leaving the others
untouched), decrements the total of the scope recorded in the entry — the
scope current at allocation time — by the recorded size saturating at
zero, keeps that scope present in the totals map, and leaves all other
scope totals untouched.  The address-map keys are pairwise distinct in any
state reachable through `add`, which only inserts absent keys. -/
theorem tracking_remove_correct (st : Ledger) (a : Addr)
    (hnd : (st.ptr_map.map Prod.fst).Nodup) :
    (mapFind a st.ptr_map = none → Tracking.remove st a = st)
    ∧ (∀ s n, mapFind a st.ptr_map = some (s, n) →
        mapFind a (Tracking.remove st a).ptr_map = none
        ∧ (∀ a2, a2 ≠ a →
            mapFind a2 (Tracking.remove st a).ptr_map
              = mapFind a2 st.ptr_map)
        ∧ (∀ t, mapFind s st.scope_map = some t →
            mapFind s (Tracking.remove st a).scope_map
              = some (if t ≤ n then 0 else t - n))
        ∧ (∀ s2, s2 ≠ s →
            mapFind s2 (Tracking.remove st a).scope_map
              = mapFind s2 st.scope_map)) := by
  constructor
  · intro h
    simp [Tracking.remove, h]
  · intro s n h
    refine ⟨?_, ?_, ?_, ?_⟩
    · rcases h2 : mapFind s st.scope_map with _ | t <;>
        simp [Tracking.remove, h, h2, mapFind_eraseFirst_self _ hnd]
    · intro a2 ha2
      rcases h2 : mapFind s st.scope_map with _ | t <;>
        simp [Tracking.remove, h, h2, mapFind_eraseFirst_ne ha2]
    · intro t ht
      simp [Tracking.remove, h, ht, mapFind_adjustFirst_self]
    · intro s2 hs2
      rcases h2 : mapFind s st.scope_map with _ | t <;>
        simp [Tracking.remove, h, h2, mapFind_adjustFirst_ne hs2]

/-- Witness for C2 at concrete inputs: removing a tracked address from a
two-entry ledger erases exactly that entry and clamps exactly the recorded
scope's total to zero, and removing an unknown address is a no-op. -/
theorem tracking_remove_correct_witness :
    mapFind 7 (Tracking.remove
        ⟨[(7, ("A", 5)), (8, ("B", 3))], [("A", 5), ("B", 3)]⟩ 7).ptr_map
      = none
    ∧ mapFind 8 (Tracking.remove
        ⟨[(7, ("A", 5)), (8, ("B", 3))], [("A", 5), ("B", 3)]⟩ 7).ptr_map
      = some ("B", 3)
    ∧ mapFind "A" (Tracking.remove
        ⟨[(7, ("A", 5)), (8, ("B", 3))], [("A", 5), ("B", 3)]⟩ 7).scope_map
      = some (if 5 ≤ 5 then 0 else 5 - 5)
    ∧ mapFind "B" (Tracking.remove
        ⟨[(7, ("A", 5)), (8, ("B", 3))], [("A", 5), ("B", 3)]⟩ 7).scope_map
      = some 3
    ∧ Tracking.remove
        ⟨[(7, ("A", 5)), (8, ("B", 3))], [("A", 5), ("B", 3)]⟩ 9
      = ⟨[(7, ("A", 5)), (8, ("B", 3))], [("A", 5), ("B", 3)]⟩ := by
  have h := tracking_remove_correct
      ⟨[(7, ("A", 5)), (8, ("B", 3))], [("A", 5), ("B", 3)]⟩ 7 (by decide)
  have h9 := tracking_remove_correct
      ⟨[(7, ("A", 5)), (8, ("B", 3))], [("A", 5), ("B", 3)]⟩ 9 (by decide)
  have hk := h.2 "A" 5 (by decide)
  refine ⟨hk.1, ?_, hk.2.2.1 5 (by decide), ?_, h9.1 (by decide)⟩
  · have := hk.2.1 8 (by decide)
    rw [this]; decide
  · have := hk.2.2.2 "B" (by decide)
    rw [this]; decide

/-! ### C3: matched add/remove sequences drive every scope total to zero -/

/-- One ledger operation, for stating properties of call sequences. -/
inductive Op : Type
  | add (a : Addr) (s : Scope) (n : Nat)
  | remove (a : Addr)
  deriving Repr, DecidableEq

/-- Run a sequence of ledger operations (log output discarded). -/
def runOps (st : Ledger) : List Op → Ledger
  | [] => st
  | Op.add a s n :: rest => runOps (Tracking.add st a s n).1 rest
  | Op.remove a :: rest => runOps (Tracking.remove st a) rest

/-- Checks that a sequence consists of matched add/remove pairs from `st`:
no `add` of an address already present, no `remove` of an unknown address,
and every added address removed by the end (the address map ends empty). -/
def okOps (st : Ledger) : List Op → Bool
  | [] => st.ptr_map.isEmpty
  | Op.add a s n :: rest =>
      (mapFind a st.ptr_map).isNone && okOps (Tracking.add st a s n).1 rest
  | Op.remove a :: rest =>
      (mapFind a st.ptr_map).isSome && okOps (Tracking.remove st a) rest

/-- Internal well-formedness of a ledger: keys of both maps are pairwise
distinct, every scope total equals the sum of the recorded sizes of the
address entries bearing that scope, and every address entry's scope is
present in the totals map. -/
def LedgerInv (st : Ledger) : Prop :=
  (st.ptr_map.map Prod.fst).Nodup
  ∧ (st.scope_map.map Prod.fst).Nodup
  ∧ (∀ s v, mapFind s st.scope_map = some v → v = sumScope s st.ptr_map)
  ∧ (∀ e ∈ st.ptr_map, mapFind e.2.1 st.scope_map ≠ none)

theorem mapFind_of_mem_nodup {α β : Type} [DecidableEq α] {k : α} {v : β}
    {l : List (α × β)} (hnd : (l.map Prod.fst).Nodup) (hm : (k, v) ∈ l) :
    mapFind k l = some v := by
  induction l with
  | nil => simp at hm
  | cons hd tl ih =>
      obtain ⟨k2, v2⟩ := hd
      simp only [List.map_cons, List.nodup_cons] at hnd
      rcases List.mem_cons.1 hm with h | h
      · obtain ⟨rfl, rfl⟩ := Prod.mk.injEq .. ▸ h
        simp [mapFind]
      · have hk : k2 ≠ k := by
          rintro rfl
          exact hnd.1 (List.mem_map.2 ⟨(k2, v), h, rfl⟩)
        simp [mapFind, hk, ih hnd.2 h]

theorem sumScope_eraseFirst {a : Addr} {s : Scope} {n : Nat}
    {pm : List (Addr × (Scope × Nat))} (h : mapFind a pm = some (s, n))
    (s2 : Scope) :
    sumScope s2 pm
      = sumScope s2 (mapEraseFirst a pm) + (if s = s2 then n else 0) := by
  induction pm with
  | nil => simp [mapFind] at h
  | cons hd tl ih =>
      obtain ⟨a2, s3, n3⟩ := hd
      by_cases ha : a2 = a
      · subst ha
        simp only [mapFind, if_pos, Option.some.injEq, Prod.mk.injEq] at h
        obtain ⟨rfl, rfl⟩ := h
        simp [sumScope, mapEraseFirst, Nat.add_comm]
      · simp only [mapFind, if_neg ha] at h
        simp only [sumScope, mapEraseFirst, if_neg ha]
        rw [ih h]
        ring

theorem sumScope_le_of_find {a : Addr} {s : Scope} {n : Nat}
    {pm : List (Addr × (Scope × Nat))} (h : mapFind a pm = some (s, n)) :
    n ≤ sumScope s pm := by
  have := sumScope_eraseFirst h s
  simp only [if_pos] at this
  omega

theorem sumScope_zero_of_unregistered {s : Scope}
    {pm : List (Addr × (Scope × Nat))} {sm : List (Scope × Nat)}
    (hreg : ∀ e ∈ pm, mapFind e.2.1 sm ≠ none)
    (hs : mapFind s sm = none) : sumScope s pm = 0 := by
  induction pm with
  | nil => rfl
  | cons hd tl ih =>
      obtain ⟨a2, s3, n3⟩ := hd
      have hh := hreg (a2, s3, n3) (List.mem_cons_self _ _)
      have hne : s3 ≠ s := by
        rintro rfl
        exact hh hs
      simp only [sumScope, if_neg hne, Nat.zero_add]
      exact ih (fun e he => hreg e (List.mem_cons_of_mem _ he))

theorem ledgerInv_empty : LedgerInv Ledger.empty := by
  refine ⟨by simp [Ledger.empty], by simp [Ledger.empty], ?_, ?_⟩
  · intro s v h
    simp [Ledger.empty, mapFind] at h
  · intro e he
    simp [Ledger.empty] at he

theorem ledgerInv_add {st : Ledger} {a : Addr} (s : Scope) (n : Nat)
    (hfresh : mapFind a st.ptr_map = none) (hinv : LedgerInv st) :
    LedgerInv (Tracking.add st a s n).1 := by
  obtain ⟨hnd1, hnd2, htot, hreg⟩ := hinv
  rcases hsm : mapFind s st.scope_map with _ | t
  · refine ⟨?_, ?_, ?_, ?_⟩
    · simp only [Tracking.add, hfresh, List.map_cons, List.nodup_cons]
      exact ⟨(mapFind_eq_none_iff a st.ptr_map).1 hfresh, hnd1⟩
    · simp only [Tracking.add, hfresh, hsm, List.map_cons, List.nodup_cons]
      exact ⟨(mapFind_eq_none_iff s st.scope_map).1 hsm, hnd2⟩
    · intro s2 v hv
      simp only [Tracking.add, hfresh, hsm] at hv ⊢
      by_cases hs2 : s = s2
      · subst hs2
        simp only [mapFind, if_pos, Option.some.injEq] at hv
        subst hv
        simp [sumScope, sumScope_zero_of_unregistered hreg hsm]
      · simp only [mapFind, if_neg hs2] at hv
        simp [sumScope, if_neg hs2, htot s2 v hv]
    · intro e he
      simp only [Tracking.add, hfresh, hsm] at he ⊢
      rcases List.mem_cons.1 he with h | h
      · subst h
        simp [mapFind]
      · by_cases hs2 : s = e.2.1 <;>
          simp [mapFind, hs2, hreg e h]
  · refine ⟨?_, ?_, ?_, ?_⟩
    · simp only [Tracking.add, hfresh, List.map_cons, List.nodup_cons]
      exact ⟨(mapFind_eq_none_iff a st.ptr_map).1 hfresh, hnd1⟩
    · simp only [Tracking.add, hfresh, hsm, mapAdjustFirst_keys]
      exact hnd2
    · intro s2 v hv
      simp only [Tracking.add, hfresh, hsm] at hv ⊢
      by_cases hs2 : s2 = s
      · subst hs2
        rw [mapFind_adjustFirst_self, hsm] at hv
        simp only [Option.map_some', Option.some.injEq] at hv
        subst hv
        simp [sumScope, htot s2 t hsm, Nat.add_comm]
      · rw [mapFind_adjustFirst_ne hs2] at hv
        have hss : ¬s = s2 := fun h => hs2 h.symm
        simp [sumScope, hss, htot s2 v hv]
    · intro e he
      simp only [Tracking.add, hfresh, hsm] at he ⊢
      rcases List.mem_cons.1 he with h | h
      · subst h
        simp [mapFind_adjustFirst_self, hsm]
      · by_cases hs2 : e.2.1 = s
        · rw [hs2, mapFind_adjustFirst_self, hsm]
          simp
        · rw [mapFind_adjustFirst_ne hs2]
          exact hreg e h

theorem ledgerInv_remove {st : Ledger} (a : Addr) (hinv : LedgerInv st) :
    LedgerInv (Tracking.remove st a) := by
  obtain ⟨hnd1, hnd2, htot, hreg⟩ := hinv
  rcases hpm : mapFind a st.ptr_map with _ | sn
  · simpa [Tracking.remove, hpm] using ⟨hnd1, hnd2, htot, hreg⟩
  · obtain ⟨s, n⟩ := sn
    have hsm0 : mapFind s st.scope_map ≠ none := hreg (a, s, n) (mapFind_mem hpm)
    rcases hsm : mapFind s st.scope_map with _ | t
    · exact absurd hsm hsm0
    refine ⟨?_, ?_, ?_, ?_⟩
    · simp only [Tracking.remove, hpm, hsm]
      exact hnd1.sublist ((mapEraseFirst_sublist a st.ptr_map).map Prod.fst)
    · simp only [Tracking.remove, hpm, hsm, mapAdjustFirst_keys]
      exact hnd2
    · intro s2 v hv
      simp only [Tracking.remove, hpm, hsm] at hv ⊢
      by_cases hs2 : s2 = s
      · subst hs2
        rw [mapFind_adjustFirst_self, hsm] at hv
        simp only [Option.map_some', Option.some.injEq] at hv
        have ht : t = sumScope s2 st.ptr_map := htot s2 t hsm
        have hle : n ≤ sumScope s2 st.ptr_map := sumScope_le_of_find hpm
        have herase : sumScope s2 st.ptr_map
            = sumScope s2 (mapEraseFirst a st.ptr_map) + n := by
          simpa using sumScope_eraseFirst hpm s2
        subst hv
        by_cases hc : t ≤ n
        · rw [if_pos hc]
          omega
        · rw [if_neg hc]
          omega
      · rw [mapFind_adjustFirst_ne hs2] at hv
        have herase := sumScope_eraseFirst hpm s2
        rw [if_neg (fun h : s = s2 => hs2 h.symm)] at herase
        have := htot s2 v hv
        omega
    · intro e he
      simp only [Tracking.remove, hpm, hsm] at he ⊢
      have hmem : e ∈ st.ptr_map := (mapEraseFirst_sublist a st.ptr_map).subset he
      by_cases hs2 : e.2.1 = s
      · rw [hs2, mapFind_adjustFirst_self, hsm]
        simp
      · rw [mapFind_adjustFirst_ne hs2]
        exact hreg e hmem

theorem runOps_zero_totals :
    ∀ (ops : List Op) (st : Ledger), LedgerInv st → okOps st ops = true →
    ∀ p ∈ (runOps st ops).scope_map, p.2 = 0 := by
  intro ops
  induction ops with
  | nil =>
      intro st hinv hok p hp
      simp only [okOps, List.isEmpty_iff] at hok
      have hfind := mapFind_of_mem_nodup hinv.2.1
        (show (p.1, p.2) ∈ st.scope_map from hp)
      have := hinv.2.2.1 p.1 p.2 hfind
      rw [this, hok]
      rfl
  | cons op rest ih =>
      intro st hinv hok
      cases op with
      | add a s n =>
          simp only [okOps, Bool.and_eq_true, Option.isNone_iff_eq_none] at hok
          exact ih _ (ledgerInv_add s n hok.1 hinv) hok.2
      | remove a =>
          simp only [okOps, Bool.and_eq_true] at hok
          exact ih _ (ledgerInv_remove a hinv) hok.2

/-- C3: starting from the empty ledger, after any sequence of matched
add/remove pairs (no duplicate adds, no removes of unknown addresses, every
add eventually removed) every scope total reported by `get_extents` is
zero; in particular `add(a, X, n)` followed by `remove(a)` yields exactly
the map containing `X` at total `0`. -/
theorem matched_sequence_totals_zero (ops : List Op)
    (hok : okOps Ledger.empty ops = true) :
    (∀ p ∈ Tracking.get_extents (runOps Ledger.empty ops), p.2 = 0)
    ∧ ∀ (a : Addr) (X : Scope) (n : Nat),
        Tracking.get_extents
          (runOps Ledger.empty [Op.add a X n, Op.remove a]) = [(X, 0)] := by
  constructor
  · exact runOps_zero_totals ops Ledger.empty ledgerInv_empty hok
  · intro a X n
    simp [runOps, Tracking.add, Tracking.remove, Tracking.get_extents,
      Ledger.empty, mapFind, mapEraseFirst, mapAdjustFirst]

/-- Witness for C3: a concrete matched sequence over two scopes ends with
all totals zero, and a concrete add/remove pair yields exactly one scope
entry, retained at zero. -/
theorem matched_sequence_totals_zero_witness :
    okOps Ledger.empty
        [Op.add 1 "X" 5, Op.add 2 "Y" 3, Op.remove 2, Op.remove 1] = true
    ∧ (∀ p ∈ Tracking.get_extents (runOps Ledger.empty
        [Op.add 1 "X" 5, Op.add 2 "Y" 3, Op.remove 2, Op.remove 1]),
        p.2 = 0)
    ∧ Tracking.get_extents
        (runOps Ledger.empty [Op.add 6 "X" 4, Op.remove 6]) = [("X", 0)] := by
  have h := matched_sequence_totals_zero
      [Op.add 1 "X" 5, Op.add 2 "Y" 3, Op.remove 2, Op.remove 1] (by decide)
  exact ⟨by decide, h.1, h.2 6 "X" 4⟩

/-! ### C4 and C10: `memory::track` / `memory::release` and the extern "C"
allocator entry points of the overload translation unit -/

/-- Modulus of `size_t` arithmetic (64-bit platform). -/
def U64 : Nat := 2 ^ 64

/-- The process/thread state seen by `memory::track` and `memory::release`
after `init` has completed: the calling thread's recursion flag (the value
`RecursionGuard` construction reads), the `tracking_enabled` atomic, the
process-wide current scope string, the `Tracking` ledger behind `map`, and
the diagnostics accumulated through the log sink. -/
structure MemState : Type where
  recursion : Bool
  enabled : Bool
  scope : String
  ledger : Ledger
  events : List LogEvent
  deriving Repr, DecidableEq

namespace memory

/-- Embedding of `memory::track(void* addr, size_t size)`: return unchanged
under recursion or with tracking disabled; otherwise log the diagnostic
and, when the current scope is non-empty, call `Tracking::add` under it.
The recursion flag is restored by the guard's destructor on every path. -/
def track (st : MemState) (addr : Addr) (size : Nat) : MemState :=
  if st.recursion || !st.enabled then st
  else
    let st2 := { st with
      events := st.events ++ [LogEvent.trackMsg addr size st.scope] }
    if st.scope.isEmpty then st2
    else
      let r := Tracking.add st2.ledger addr st.scope size
      { st2 with ledger := r.1, events := st2.events ++ r.2 }

/-- Embedding of `memory::release(void* addr)`: return unchanged under
recursion or with tracking disabled; otherwise log the diagnostic and call
`Tracking::remove` (with no scope check). -/
def release (st : MemState) (addr : Addr) : MemState :=
  if st.recursion || !st.enabled then st
  else
    let st2 := { st with events := st.events ++ [LogEvent.releaseMsg addr] }
    { st2 with ledger := Tracking.remove st2.ledger addr }

end memory

/-- Embedding of the extern "C" `malloc(size)` entry point with the
trampoline already resolved: `ret` is the pointer the underlying allocator
returns (`0` models a null result).  Yields the returned pointer, the
number of calls made to the underlying allocator (the single
`overloads::malloc(size)` call), and the state after `memory::track`,
which the source invokes unconditionally — even for a null `ret`. -/
def mallocEntry (st : MemState) (size : Nat) (ret : Addr) :
    Addr × Nat × MemState :=
  (ret, 1, memory.track st ret size)

/-- Embedding of the extern "C" `free(ptr)` entry point with the trampoline
already resolved: `memory::release` runs, then the one underlying
`overloads::free(ptr)` call (counted in the first component). -/
def freeEntry (st : MemState) (ptr : Addr) : Nat × MemState :=
  (1, memory.release st ptr)

/-- Embedding of the extern "C" `calloc(num, size)` entry point with the
trampoline already resolved: one underlying call; `memory::track` runs
only when the returned pointer is non-null (`if (ptr)` in the source),
with the `size_t` product `num*size`. -/
def callocEntry (st : MemState) (num size : Nat) (ret : Addr) :
    Addr × Nat × MemState :=
  (ret, 1, if ret ≠ 0 then memory.track st ret (num * size % U64) else st)

/-- C4: a call to `track` or `release` made with the thread's recursion
flag already set, or with tracking disabled, leaves the entire state —
ledger included — unchanged, while each intercepting entry point still
performs exactly one underlying allocator call; and `track` leaves the
ledger unchanged whenever the current scope is the empty string. -/
theorem track_release_skip (st st2 : MemState) (a n num sz : Nat)
    (h : st.recursion = true ∨ st.enabled = false)
    (hs : st2.scope = "") :
    memory.track st a n = st
    ∧ memory.release st a = st
    ∧ (mallocEntry st n a).2.1 = 1
    ∧ (freeEntry st a).1 = 1
    ∧ (callocEntry st num sz a).2.1 = 1
    ∧ (memory.track st2 a n).ledger = st2.ledger := by
  have hskip : (st.recursion || !st.enabled) = true := by
    rcases h with h | h <;> simp [h]
  refine ⟨?_, ?_, rfl, rfl, ?_, ?_⟩
  · simp [memory.track, hskip]
  · simp [memory.release, hskip]
  · by_cases hz : a = 0 <;> simp [callocEntry, hz, memory.track, hskip]
  · by_cases hr : (st2.recursion || !st2.enabled) = true
    · simp [memory.track, hr]
    · simp [memory.track, hr, hs, show "".isEmpty = true from rfl]

/-- Witness for C4 at concrete inputs: a recursion-flagged state and an
empty-scope state. -/
theorem track_release_skip_witness :
    memory.track ⟨true, true, "A", Ledger.empty, []⟩ 5 7
      = ⟨true, true, "A", Ledger.empty, []⟩
    ∧ memory.release ⟨true, true, "A", Ledger.empty, []⟩ 5
      = ⟨true, true, "A", Ledger.empty, []⟩
    ∧ (mallocEntry ⟨true, true, "A", Ledger.empty, []⟩ 7 5).2.1 = 1
    ∧ (freeEntry ⟨true, true, "A", Ledger.empty, []⟩ 5).1 = 1
    ∧ (callocEntry ⟨true, true, "A", Ledger.empty, []⟩ 2 3 5).2.1 = 1
    ∧ (memory.track ⟨false, true, "", Ledger.empty, []⟩ 5 7).ledger
        = Ledger.empty := by
  exact track_release_skip ⟨true, true, "A", Ledger.empty, []⟩
    ⟨false, true, "", Ledger.empty, []⟩ 5 7 2 3 (Or.inl rfl) rfl

/-- C10: with tracking enabled, no recursion, and a non-empty scope, the
`malloc` entry point tracks even a null result: the ledger gains an entry
for address 0 and the scope's total grows by `size`; the `calloc` entry
point with a null result leaves the state untouched. -/
theorem malloc_null_tracked (st : MemState) (size num sz : Nat)
    (h1 : st.recursion = false) (h2 : st.enabled = true)
    (h3 : st.scope.isEmpty = false)
    (h4 : mapFind 0 st.ledger.ptr_map = none) :
    mapFind 0 (mallocEntry st size 0).2.2.ledger.ptr_map
      = some (st.scope, size)
    ∧ scopeTotal (mallocEntry st size 0).2.2.ledger st.scope
        = scopeTotal st.ledger st.scope + size
    ∧ (callocEntry st num sz 0).2.2 = st
    ∧ (callocEntry st num sz 0).1 = 0 := by
  have hskip : (st.recursion || !st.enabled) = false := by simp [h1, h2]
  have hled : (mallocEntry st size 0).2.2.ledger
      = (Tracking.add st.ledger 0 st.scope size).1 := by
    simp [mallocEntry, memory.track, hskip, h3]
  have hadd := (tracking_add_correct st.ledger 0 st.scope size).2 h4
  refine ⟨?_, ?_, by simp [callocEntry], rfl⟩
  · rw [hled]
    exact hadd.2.1
  · rw [scopeTotal, hled, hadd.2.2.2.1]
    rfl

/-- Witness for C10 at concrete inputs: a failed `malloc` of 5 bytes in
scope "A" produces a null-address ledger entry and raises the total. -/
theorem malloc_null_tracked_witness :
    mapFind 0
      ((mallocEntry ⟨false, true, "A", Ledger.empty, []⟩ 5 0).2.2.ledger.ptr_map)
      = some ("A", 5)
    ∧ scopeTotal
        ((mallocEntry ⟨false, true, "A", Ledger.empty, []⟩ 5 0).2.2.ledger) "A"
      = scopeTotal Ledger.empty "A" + 5
    ∧ (callocEntry ⟨false, true, "A", Ledger.empty, []⟩ 2 3 0).2.2
        = ⟨false, true, "A", Ledger.empty, []⟩
    ∧ (callocEntry ⟨false, true, "A", Ledger.empty, []⟩ 2 3 0).1 = 0 := by
  exact malloc_null_tracked ⟨false, true, "A", Ledger.empty, []⟩ 5 2 3
    rfl rfl (by decide) (by decide)

/-! ### C6: `overloads::init` / `memory::init` called a second time -/

/-- What the `calloc` trampoline currently points at. -/
inductive CallocTarget : Type
  | null
  | dummy
  | real
  deriving Repr, DecidableEq

/-- Process state relevant to initialization: whether `LD_PRELOAD` is still
set in the environment, the three trampoline pointers, the number of `Log`
objects constructed so far (`log` is re-seated on each construction), the
`Tracking` ledger behind `map` (`none` while the pointer is null), the
`tracking_enabled` flag, and the number of `atexit` registrations. -/
structure InitState : Type where
  preload_set : Bool
  malloc_resolved : Bool
  free_resolved : Bool
  calloc_target : CallocTarget
  log_gen : Nat
  ledger : Option Ledger
  enabled : Bool
  atexit_count : Nat
  deriving Repr, DecidableEq

/-- Embedding of `memory::init()`: construct a fresh `Log` (a new object
each call), then a fresh `Tracking` — whose constructor reads `LD_PRELOAD`
and calls `abort()` when it is unset (modelled as `none`) — set
`tracking_enabled`, and register `destroy` with `atexit` (again on every
call; there is no one-time guard anywhere in this function). -/
def memoryInit (s : InitState) : Option InitState :=
  if s.preload_set then
    some { s with
      log_gen := s.log_gen + 1,
      ledger := some Ledger.empty,
      enabled := true,
      atexit_count := s.atexit_count + 1 }
  else none

namespace overloads

/-- Embedding of `overloads::init()`: install the bootstrap allocator in
the `calloc` trampoline, resolve `malloc`, `free` and `calloc` through the
loader (assumed to succeed), run `memory::init()`, then unset
`LD_PRELOAD`.  No one-time flag guards re-entry. -/
def init (s : InitState) : Option InitState :=
  let s1 := { s with calloc_target := CallocTarget.dummy }
  let s2 := { s1 with
    malloc_resolved := true,
    free_resolved := true,
    calloc_target := CallocTarget.real }
  match memoryInit s2 with
  | none => none
  | some s3 => some { s3 with preload_set := false }

end overloads

/-- Counterexample to C6 as stated: from a fresh process state the first
`init` completes, but a second call is not a no-op — it aborts the process
(the `Tracking` constructor finds `LD_PRELOAD` unset, because the first
`init` unset it) instead of leaving the state as the first call left it. -/
theorem init_twice_counterexample :
    (overloads.init
        ⟨true, false, false, CallocTarget.null, 0, none, false, 0⟩).bind
      overloads.init = none
    ∧ overloads.init
        ⟨true, false, false, CallocTarget.null, 0, none, false, 0⟩
      ≠ none := by decide

/-- C6 amended: `init` is never reinvoked through the entry points once the
trampolines are resolved, but a direct second call is not a no-op.  The
first call (from any state with `LD_PRELOAD` set) resolves the
trampolines, constructs a fresh log sink and a fresh empty ledger, enables
tracking, registers the at-exit hook, and unsets `LD_PRELOAD`; because of
that unset, a second call aborts the process inside the `Tracking`
constructor rather than leaving state unchanged. -/
theorem init_second_call_aborts (s : InitState) (h : s.preload_set = true) :
    (∀ s1, overloads.init s = some s1 →
        s1.preload_set = false
        ∧ s1.malloc_resolved = true
        ∧ s1.free_resolved = true
        ∧ s1.calloc_target = CallocTarget.real
        ∧ s1.enabled = true
        ∧ s1.ledger = some Ledger.empty
        ∧ s1.log_gen = s.log_gen + 1
        ∧ s1.atexit_count = s.atexit_count + 1
        ∧ overloads.init s1 = none)
    ∧ (overloads.init s).isSome = true := by
  constructor
  · intro s1 h1
    simp only [overloads.init, memoryInit, if_pos h, Option.some.injEq] at h1
    subst h1
    exact ⟨rfl, rfl, rfl, rfl, rfl, rfl, rfl, rfl,
      by simp [overloads.init, memoryInit]⟩
  · simp [overloads.init, memoryInit, h]

/-- Witness for the amended C6 at a concrete fresh state: the first call
succeeds and the second call aborts. -/
theorem init_second_call_aborts_witness :
    (overloads.init
        ⟨true, false, false, CallocTarget.null, 0, none, false, 0⟩).isSome
      = true
    ∧ overloads.init
        ⟨false, true, true, CallocTarget.real, 1, some Ledger.empty, true, 1⟩
      = none := by
  have h := init_second_call_aborts
    ⟨true, false, false, CallocTarget.null, 0, none, false, 0⟩ rfl
  exact ⟨h.2, (h.1
    ⟨false, true, true, CallocTarget.real, 1, some Ledger.empty, true, 1⟩
    (by decide)).2.2.2.2.2.2.2.2⟩

/-! ### C7: log-sink destination selection -/

/-- The `Log::DEST` enumeration of the source. -/
inductive DEST : Type
  | none
  | stdout
  | stderr
  | file
  deriving Repr, DecidableEq

/-- Embedding of the `Log` constructor's destination choice from the
`MEMSCOPETRACK_LOGFILE` environment variable (`env = none` models an unset
variable).  The source tests `strncmp(filename, "stdout", 6) == 0` — a
comparison of the first six characters only — modelled by
`String.take 6`; the second component is the path handed to `Outfile`
when the destination is a file. -/
def logDest (env : Option String) : DEST × Option String :=
  match env with
  | Option.none => (DEST.none, Option.none)
  | Option.some filename =>
      if filename.take 6 = "stdout" then (DEST.stdout, Option.none)
      else if filename.take 6 = "stderr" then (DEST.stderr, Option.none)
      else (DEST.file, Option.some filename)

/-- Counterexample to C7 as stated: the value "stdout.log" is neither the
exact string "stdout" nor "stderr", yet the log sink selects standard out,
not an `Outfile` at that path. -/
theorem logDest_counterexample :
    logDest (some "stdout.log") = (DEST.stdout, Option.none)
    ∧ "stdout.log" ≠ "stdout"
    ∧ "stdout.log" ≠ "stderr" := by decide

/-- C7 amended: the destination is chosen from the first six characters of
the variable's value — unset discards, a value whose first six characters
are "stdout" (resp. "stderr") selects the standard stream, and any other
value selects an `Outfile` at that path. -/
theorem logDest_spec (v : String) :
    logDest Option.none = (DEST.none, Option.none)
    ∧ (v.take 6 = "stdout" → logDest (some v) = (DEST.stdout, Option.none))
    ∧ (v.take 6 ≠ "stdout" → v.take 6 = "stderr" →
        logDest (some v) = (DEST.stderr, Option.none))
    ∧ (v.take 6 ≠ "stdout" → v.take 6 ≠ "stderr" →
        logDest (some v) = (DEST.file, some v)) := by
  refine ⟨rfl, ?_, ?_, ?_⟩
  · intro h
    simp [logDest, h]
  · intro h1 h2
    simp [logDest, h1, h2]
  · intro h1 h2
    simp [logDest, h1, h2]

/-- Witness for the amended C7 at concrete values: a "stdout"-prefixed
value selects standard out, another value selects a file at that path. -/
theorem logDest_spec_witness :
    logDest (some "stdoutX") = (DEST.stdout, Option.none)
    ∧ logDest (some "out.log") = (DEST.file, some "out.log") :=
  ⟨(logDest_spec "stdoutX").2.1 (by decide),
   (logDest_spec "out.log").2.2.2 (by decide) (by decide)⟩

/-! ### C8: Outfile construction -/

/-- Result of `std::make_unique<std::ofstream>(path, ...)`: the smart
pointer (non-null whenever `make_unique` returns) and whether the stream
actually opened the file. -/
structure OfstreamHandle : Type where
  isNull : Bool
  openOk : Bool
  deriving Repr, DecidableEq

/-- Constructing the ofstream: `make_unique` yields a non-null pointer even
when the open fails; the open outcome lives in the stream state. -/
def makeOfstream (openOk : Bool) : OfstreamHandle :=
  { isNull := false, openOk := openOk }

/-- The observable configuration of a constructed `Outfile`. -/
structure OutfileModel : Type where
  filename : String
  gzipped : Bool
  deriving Repr, DecidableEq

/-- Embedding of the `has_suffix` lambda in `Outfile::Outfile`. -/
def has_suffix (filename suffix : String) : Bool :=
  decide (suffix.length ≤ filename.length)
    && decide (filename.drop (filename.length - suffix.length) = suffix)

/-- Embedding of `Outfile::Outfile(std::string path)`: construct the
ofstream (`openOk` says whether the operating system could open the path
for writing), test `!outfile_base_` — the smart pointer, not the stream —
and throw "cannot open output file" only when that pointer is null; then
route through a gzip compressor iff the path ends in ".gz". -/
def outfileInit (path : String) (openOk : Bool) :
    Except String OutfileModel :=
  let base := makeOfstream openOk
  if base.isNull then Except.error "cannot open output file"
  else Except.ok { filename := path, gzipped := has_suffix path ".gz" }

/-- C8: the gzip wrapping is chosen exactly by the ".gz" suffix, but the
open-failure check tests the never-null smart pointer instead of the
stream, so construction succeeds even for a path that cannot be opened —
the "cannot open output file" throw is unreachable, contradicting the
specified error behavior (code bug: the evaluation at the failing input
shows no error is raised). -/
theorem outfile_open_failure_not_thrown :
    (∀ path openOk, outfileInit path openOk
        = Except.ok { filename := path, gzipped := has_suffix path ".gz" })
    ∧ outfileInit "/bad/dir/out.txt" false
        = Except.ok { filename := "/bad/dir/out.txt", gzipped := false }
    ∧ outfileInit "timeline.gz" false
        = Except.ok { filename := "timeline.gz", gzipped := true }
    ∧ has_suffix "timeline.txt" ".gz" = false := by
  refine ⟨fun path openOk => rfl, ?_, ?_, by decide⟩
  · show Except.ok _ = _
    rw [show has_suffix "/bad/dir/out.txt" ".gz" = false by decide]
  · show Except.ok _ = _
    rw [show has_suffix "timeline.gz" ".gz" = true by decide]

/-! ### C5: the bootstrap allocator `overloads::dummy_calloc` -/

/-- The `MAX_SIZE` constant of `dummy_calloc`: the abort threshold for the
running offset, and the byte count of the first-call `memset`. -/
def MAX_SIZE : Nat := 1024

/-- Size of one element of the static buffer: `buf` is declared
`char* buf[MAX_SIZE]` — an array of pointers — so `buf + oldOffset`
advances in units of `sizeof(char*)`, 8 bytes on a 64-bit platform. -/
def PTR_BYTES : Nat := 8

/-- Total byte size of the static arena `buf` (an array of `MAX_SIZE`
pointers, 8192 bytes), all zero at program start by static
initialization. -/
def ARENA_BYTES : Nat := MAX_SIZE * PTR_BYTES

/-- Embedding of one `overloads::dummy_calloc(num, size)` call with the
running offset at `offset`, in `size_t` (mod `2^64`) arithmetic.  The
offset advances by `num * size`; `offset >= MAX_SIZE` afterwards aborts
the process (`none`); otherwise the call returns `buf + oldOffset`,
i.e. the byte interval of the arena starting at `PTR_BYTES * oldOffset`
of length `num * size`, as `(new offset, region start, region length)`. -/
def dummy_calloc (offset num size : Nat) : Option (Nat × Nat × Nat) :=
  let newOffset := (offset + num * size % U64) % U64
  if MAX_SIZE ≤ newOffset then none
  else some (newOffset, PTR_BYTES * offset, num * size % U64)

/-- Run a sequence of bootstrap calls from a given offset, collecting the
granted byte regions; `none` models the abort on exhaustion. -/
def bootRegions (offset : Nat) :
    List (Nat × Nat) → Option (Nat × List (Nat × Nat))
  | [] => some (offset, [])
  | (num, size) :: rest =>
      match dummy_calloc offset num size with
      | none => none
      | some (off2, start, len) =>
          match bootRegions off2 rest with
          | none => none
          | some (offF, regs) => some (offF, (start, len) :: regs)

/-- Cumulative requested bytes of a call sequence. -/
def sumReq : List (Nat × Nat) → Nat
  | [] => 0
  | (num, size) :: rest => num * size + sumReq rest

/-- Membership of byte position `p` in region `r = (start, length)`. -/
def inRegion (r : Nat × Nat) (p : Nat) : Prop := r.1 ≤ p ∧ p < r.1 + r.2

/-- Every region is entirely zero at the moment it is granted: for any
arena contents whose nonzero bytes all lie in regions granted earlier,
the bytes of the new region read zero. -/
def zeroAtGrant (regs : List (Nat × Nat)) : Prop :=
  ∀ k, (hk : k < regs.length) → ∀ mem : Nat → Nat,
    (∀ p, mem p ≠ 0 →
        ∃ j, ∃ hj : j < regs.length, j < k ∧ inRegion (regs.get ⟨j, hj⟩) p) →
    ∀ p, inRegion (regs.get ⟨k, hk⟩) p → mem p = 0

/-- Counterexample to C5 as stated: the very first bootstrap call with
`num = 1`, `size = 1024` brings the cumulative requested bytes to exactly
`MAX_SIZE` — it does not exceed the capacity — yet the code aborts,
because the check is `offset >= MAX_SIZE`, not a strict-excess test. -/
theorem dummy_calloc_counterexample :
    dummy_calloc 0 1 1024 = none ∧ 1 * 1024 ≤ MAX_SIZE := by decide

theorem bootRegions_inv (calls : List (Nat × Nat)) :
    ∀ o : Nat, o < MAX_SIZE →
    (∀ c ∈ calls, c.1 * c.2 < U64 - MAX_SIZE) →
    (bootRegions o calls = none ↔ MAX_SIZE ≤ o + sumReq calls)
    ∧ ∀ off regs, bootRegions o calls = some (off, regs) →
        off = o + sumReq calls
        ∧ off < MAX_SIZE
        ∧ regs.map Prod.snd = calls.map (fun c => c.1 * c.2)
        ∧ (∀ r ∈ regs, PTR_BYTES * o ≤ r.1 ∧ r.1 + r.2 ≤ PTR_BYTES * off)
        ∧ regs.Pairwise (fun r1 r2 => r1.1 + r1.2 ≤ r2.1) := by
  have hMU : MAX_SIZE ≤ U64 := by decide
  induction calls with
  | nil =>
      intro o ho _
      constructor
      · simp only [bootRegions, sumReq]
        constructor
        · intro h
          cases h
        · intro h
          omega
      · intro off regs h
        simp only [bootRegions, Option.some.injEq, Prod.mk.injEq] at h
        obtain ⟨rfl, rfl⟩ := h
        simp [sumReq, ho]
  | cons c rest ih =>
      obtain ⟨num, size⟩ := c
      intro o ho hsmall
      have hns : num * size < U64 - MAX_SIZE :=
        hsmall (num, size) (List.mem_cons_self _ _)
      have hmod : num * size % U64 = num * size :=
        Nat.mod_eq_of_lt (by omega)
      have hsum : o + num * size < U64 := by omega
      by_cases hab : MAX_SIZE ≤ o + num * size
      · have hdc : dummy_calloc o num size = none := by
          simp only [dummy_calloc, hmod, Nat.mod_eq_of_lt hsum]
          rw [if_pos hab]
        constructor
        · simp only [bootRegions, hdc, sumReq]
          constructor
          · intro _
            omega
          · intro _
            trivial
        · intro off regs h
          simp only [bootRegions, hdc] at h
          cases h
      · have hoff2 : o + num * size < MAX_SIZE := by omega
        have hdc : dummy_calloc o num size
            = some (o + num * size, PTR_BYTES * o, num * size) := by
          simp only [dummy_calloc, hmod, Nat.mod_eq_of_lt hsum]
          rw [if_neg hab]
        obtain ⟨ihn, ihs⟩ := ih (o + num * size) hoff2
          (fun c hc => hsmall c (List.mem_cons_of_mem _ hc))
        constructor
        · simp only [bootRegions, hdc, sumReq]
          rcases hrec : bootRegions (o + num * size) rest with _ | p
          · simp only [hrec] at ihn
            simp only [true_iff] at ihn
            constructor
            · intro _
              omega
            · intro _
              rfl
          · obtain ⟨offF, regs⟩ := p
            have := ihs offF regs hrec
            constructor
            · intro h
              cases h
            · intro h
              omega
        · intro off regs h
          simp only [bootRegions, hdc] at h
          rcases hrec : bootRegions (o + num * size) rest with _ | p
          · simp only [hrec] at h
            cases h
          · obtain ⟨offF, regs2⟩ := p
            simp only [hrec, Option.some.injEq, Prod.mk.injEq] at h
            obtain ⟨rfl, rfl⟩ := h
            obtain ⟨hoffF, hoffFlt, hmap, hbnd, hpw⟩ := ihs offF regs2 hrec
            refine ⟨by simp [sumReq]; omega, hoffFlt, ?_, ?_, ?_⟩
            · simp [hmap]
            · intro r hr
              rcases List.mem_cons.1 hr with rfl | hr2
              · constructor
                · omega
                · have h8 : PTR_BYTES * o + num * size
                      ≤ PTR_BYTES * (o + num * size) := by
                    simp only [Nat.mul_add]
                    have : num * size ≤ PTR_BYTES * (num * size) := by
                      have : 1 ≤ PTR_BYTES := by decide
                      calc num * size = 1 * (num * size) := by ring
                      _ ≤ PTR_BYTES * (num * size) :=
                          Nat.mul_le_mul_right _ this
                    omega
                  have h9 : PTR_BYTES * (o + num * size) ≤ PTR_BYTES * offF :=
                    Nat.mul_le_mul_left _ (by omega)
                  omega
              · have := hbnd r hr2
                constructor
                · have : PTR_BYTES * o ≤ PTR_BYTES * (o + num * size) :=
                    Nat.mul_le_mul_left _ (by omega)
                  omega
                · exact this.2
            · refine List.Pairwise.cons ?_ hpw
              intro r hr
              have hb := (hbnd r hr).1
              have h8 : PTR_BYTES * o + num * size
                  ≤ PTR_BYTES * (o + num * size) := by
                simp only [Nat.mul_add]
                have h1 : 1 ≤ PTR_BYTES := by decide
                have : num * size ≤ PTR_BYTES * (num * size) := by
                  calc num * size = 1 * (num * size) := by ring
                  _ ≤ PTR_BYTES * (num * size) := Nat.mul_le_mul_right _ h1
                omega
              omega

theorem zeroAtGrant_of_chained {regs : List (Nat × Nat)}
    (hpw : regs.Pairwise (fun r1 r2 => r1.1 + r1.2 ≤ r2.1)) :
    zeroAtGrant regs := by
  intro k hk mem hmem p hp
  by_contra h0
  obtain ⟨j, hj, hjk, hpj⟩ := hmem p h0
  have hrel := List.pairwise_iff_get.1 hpw ⟨j, hj⟩ ⟨k, hk⟩ hjk
  obtain ⟨hpj1, hpj2⟩ := hpj
  obtain ⟨hpk1, hpk2⟩ := hp
  omega

/-- C5 amended: the bootstrap allocator aborts exactly when the cumulative
requested bytes reach or exceed `MAX_SIZE` (1024); for any non-aborting
sequence whose `size_t` arithmetic does not wrap, each call returns a
region of exactly `num * size` bytes that lies entirely inside the static
arena, is disjoint from (indeed, beyond) every earlier region, and is
entirely zero at grant time whenever the arena's nonzero bytes are
confined to earlier-granted regions. -/
theorem dummy_calloc_spec (calls : List (Nat × Nat))
    (hsmall : ∀ c ∈ calls, c.1 * c.2 < U64 - MAX_SIZE) :
    (bootRegions 0 calls = none ↔ MAX_SIZE ≤ sumReq calls)
    ∧ ∀ off regs, bootRegions 0 calls = some (off, regs) →
        regs.map Prod.snd = calls.map (fun c => c.1 * c.2)
        ∧ (∀ r ∈ regs, r.1 + r.2 ≤ ARENA_BYTES)
        ∧ regs.Pairwise (fun r1 r2 => r1.1 + r1.2 ≤ r2.1)
        ∧ zeroAtGrant regs := by
  obtain ⟨hn, hs⟩ := bootRegions_inv calls 0 (by decide) hsmall
  constructor
  · simpa using hn
  · intro off regs h
    obtain ⟨hoff, hofflt, hmap, hbnd, hpw⟩ := hs off regs h
    refine ⟨hmap, ?_, hpw, zeroAtGrant_of_chained hpw⟩
    intro r hr
    have hb := (hbnd r hr).2
    have : PTR_BYTES * off ≤ ARENA_BYTES := by
      rw [ARENA_BYTES, Nat.mul_comm MAX_SIZE PTR_BYTES]
      exact Nat.mul_le_mul_left _ (by omega)
    omega

/-- Witness for the amended C5: two concrete bootstrap calls, 16 bytes and
then 2×8 bytes, successfully grant the disjoint in-arena regions
`[0, 16)` and `[128, 144)`, both zero at grant time. -/
theorem dummy_calloc_spec_witness :
    (∀ c ∈ ([(1, 16), (2, 8)] : List (Nat × Nat)),
        c.1 * c.2 < U64 - MAX_SIZE)
    ∧ bootRegions 0 [(1, 16), (2, 8)] = some (32, [(0, 16), (128, 16)])
    ∧ ([(0, 16), (128, 16)] : List (Nat × Nat)).map Prod.snd
        = ([(1, 16), (2, 8)] : List (Nat × Nat)).map (fun c => c.1 * c.2)
    ∧ (∀ r ∈ ([(0, 16), (128, 16)] : List (Nat × Nat)),
        r.1 + r.2 ≤ ARENA_BYTES)
    ∧ ([(0, 16), (128, 16)] : List (Nat × Nat)).Pairwise
        (fun r1 r2 => r1.1 + r1.2 ≤ r2.1)
    ∧ zeroAtGrant [(0, 16), (128, 16)] := by
  have h := (dummy_calloc_spec [(1, 16), (2, 8)] (by decide)).2
    32 [(0, 16), (128, 16)] (by decide)
  exact ⟨by decide, by decide, h.1, h.2.1, h.2.2.1, h.2.2.2⟩

/-! ### C9: the sampler thread's frame emission -/

/-- The literal bound handed to `wait_for` in the sampler loop, in
milliseconds. -/
def waitBoundMs : Nat := 100

/-- One timeline frame as emitted by the sampler's `print` lambda: the
"---" line carrying the microseconds elapsed since the sampler's start
timestamp, then one "scope|bytes" line per entry of the `get_extents`
snapshot. -/
def frameLines (t : Nat) (extents : List (Scope × Nat)) : List String :=
  ("---" ++ toString t) :: extents.map (fun p => p.1 ++ "|" ++ toString p.2)

/-- The `while (running_)` loop of `TrackingThread::run`: `checks` lists
the values of the running flag observed at the successive loop tests; a
true test performs one condition-variable wait (bounded by `waitBoundMs`,
returning early if the flag flips to false) followed by one frame, and a
false test exits the loop.  `times i` and `ledgers i` are the elapsed
microseconds and the ledger at the i-th frame. -/
def samplerLoop (times : Nat → Nat) (ledgers : Nat → Ledger) :
    List Bool → Nat → List (List String)
  | [], _ => []
  | check :: rest, i =>
      if check then
        frameLines (times i) (Tracking.get_extents (ledgers i))
          :: samplerLoop times ledgers rest (i + 1)
      else []

/-- Embedding of the frame emission of `TrackingThread::run`: one frame
immediately, then the loop. -/
def samplerRun (times : Nat → Nat) (ledgers : Nat → Ledger)
    (checks : List Bool) : List (List String) :=
  frameLines (times 0) (Tracking.get_extents (ledgers 0))
    :: samplerLoop times ledgers checks 1

theorem samplerLoop_replicate (times : Nat → Nat) (ledgers : Nat → Ledger) :
    ∀ (k i : Nat),
    samplerLoop times ledgers (List.replicate k true ++ [false]) i
      = (List.range k).map (fun d =>
          frameLines (times (i + d)) (Tracking.get_extents (ledgers (i + d)))) := by
  intro k
  induction k with
  | zero =>
      intro i
      simp [samplerLoop]
  | succ k ih =>
      intro i
      have harith : ∀ d : Nat, i + 1 + d = i + (d + 1) := by omega
      simp [List.replicate_succ, samplerLoop, ih (i + 1),
        List.range_succ_eq_map, List.map_map, Function.comp, harith]

/-- C9: when the running flag is read true at `j ≥ 1` successive loop
tests and false at the next one — i.e. the flag is cleared during the
j-th bounded wait, whose predicate wakes the thread early — the sampler
emits exactly `j + 1` frames: one immediately on start, one after each of
the `j` waits (each bounded by the 100 ms constant), the last of them
being the single final frame emitted after the flag became false, and
then exits the loop; frame `i` is the "---" timestamp line followed by
the "scope|bytes" lines of the `get_extents` snapshot. -/
theorem sampler_frames (j : Nat) (hj : 1 ≤ j) (times : Nat → Nat)
    (ledgers : Nat → Ledger) :
    samplerRun times ledgers (List.replicate j true ++ [false])
      = (List.range (j + 1)).map (fun i =>
          frameLines (times i) (Tracking.get_extents (ledgers i)))
    ∧ (samplerRun times ledgers (List.replicate j true ++ [false])).length
        = j + 1
    ∧ waitBoundMs = 100 := by
  have hrun : samplerRun times ledgers (List.replicate j true ++ [false])
      = (List.range (j + 1)).map (fun i =>
          frameLines (times i) (Tracking.get_extents (ledgers i))) := by
    rw [samplerRun, samplerLoop_replicate times ledgers j 1,
      List.range_succ_eq_map]
    have harith : ∀ d : Nat, 1 + d = d + 1 := by omega
    simp [List.map_map, Function.comp, harith]
  refine ⟨hrun, ?_, rfl⟩
  rw [hrun]
  simp

/-- Witness for C9: the flag flips during the second wait; three frames
come out, each in the documented format. -/
theorem sampler_frames_witness :
    samplerRun (fun i => 100000 * i) (fun _ => ⟨[], [("A", 7)]⟩)
        (List.replicate 2 true ++ [false])
      = [["---0", "A|7"], ["---100000", "A|7"], ["---200000", "A|7"]]
    ∧ waitBoundMs = 100 := by
  have h := sampler_frames 2 (by decide) (fun i => 100000 * i)
    (fun _ => ⟨[], [("A", 7)]⟩)
  refine ⟨?_, h.2.2⟩
  rw [h.1]
  decide
